import Mathlib

/-!
Verification of the process-scheduling core of `os5` (stride scheduler,
task lifecycle, uniprocessor exclusive-access cell).

The ready queue (`src/os5/src/task/manager.rs`) is a Rust
`alloc::collections::BinaryHeap<StrideComparator>`; we embed the standard
library's binary-heap algorithms (`push` via `sift_up`, `pop` via
`sift_down_to_bottom` followed by `sift_up`) over a `List`, parametric in
the comparator `le`.  The comparator `StrideComparator` reverses the
stride order so that the heap's maximum is the minimum-stride task.
-/

namespace Os5

/-- Index of the parent of heap slot `i` (Rust: `(pos - 1) / 2`). -/
def parentIdx (i : Nat) : Nat := (i - 1) / 2

/-- Rust `BinaryHeap::sift_up` with hole-at-`pos` holding element `x`:
while the hole is not the root and `x` is strictly greater than the
parent, move the parent down; finally place `x` at the hole. -/
def siftUpGo (le : α → α → Bool) (x : α) (l : List α) (pos : Nat) : List α :=
  if pos = 0 then l.set 0 x
  else if le x (l.getD (parentIdx pos) x) then l.set pos x
  else siftUpGo le x (l.set pos (l.getD (parentIdx pos) x)) (parentIdx pos)
termination_by pos
decreasing_by simp_wf; simp [parentIdx]; omega

/-- Rust `BinaryHeap::push`: append the element, then sift it up from the
last slot. -/
def heapPush (le : α → α → Bool) (l : List α) (x : α) : List α :=
  siftUpGo le x (l ++ [x]) l.length

/-- Rust `BinaryHeap::sift_down_to_bottom`, descent phase: the hole walks
to the bottom, always promoting the greater child (ties promote the right
child); returns the array and the final hole position.  The hole's element
`x` is not compared during descent. -/
def siftDownGo (le : α → α → Bool) (x : α) (l : List α) (pos : Nat) :
    List α × Nat :=
  if h : 2 * pos + 1 ≤ l.length - 2 then
    if le (l.getD (2 * pos + 1) x) (l.getD (2 * pos + 2) x) then
      siftDownGo le x (l.set pos (l.getD (2 * pos + 2) x)) (2 * pos + 2)
    else
      siftDownGo le x (l.set pos (l.getD (2 * pos + 1) x)) (2 * pos + 1)
  else if 2 * pos + 1 = l.length - 1 then
    (l.set pos (l.getD (2 * pos + 1) x), 2 * pos + 1)
  else (l, pos)
termination_by l.length - pos
decreasing_by
  · simp_wf; omega
  · simp_wf; omega

/-- Rust `BinaryHeap::pop`: remove the vector's last element; if the heap
is still nonempty, swap it with the root (the returned maximum) and run
`sift_down_to_bottom` from the root, which descends to the bottom and then
sifts the swapped-in element up. -/
def heapPop (le : α → α → Bool) (l : List α) : Option (α × List α) :=
  match l with
  | [] => none
  | a :: tl =>
    let last := tl.getLastD a
    let l1 := (a :: tl).dropLast
    if l1.isEmpty then some (last, l1)
    else
      let root := l1.getD 0 last
      let sd := siftDownGo le last (l1.set 0 last) 0
      some (root, siftUpGo le last sd.1 sd.2)

/-! ### The heap-shape invariant and its preservation -/
/-- The comparator is total (any two elements are comparable). -/
def LeTotal (le : α → α → Bool) : Prop := ∀ x y : α, le x y = true ∨ le y x = true

/-- The comparator is transitive. -/
def LeTrans (le : α → α → Bool) : Prop :=
  ∀ x y z : α, le x y = true → le y z = true → le x z = true

/-- Binary-heap shape invariant of the backing vector: every non-root
entry is `le` its parent (with the reversed comparator, the root carries
the minimum stride). -/
def IsHeap (le : α → α → Bool) (l : List α) : Prop :=
  ∀ i, ∀ hi : i < l.length, ∀ hp : parentIdx i < l.length, i ≠ 0 →
    le l[i] l[parentIdx i] = true

/-- Heap shape everywhere except at the hole `pos`: comparisons whose
child or parent slot is the hole are exempt. -/
def HeapExcept (le : α → α → Bool) (l : List α) (pos : Nat) : Prop :=
  ∀ i, ∀ hi : i < l.length, ∀ hp : parentIdx i < l.length, i ≠ 0 → i ≠ pos →
    parentIdx i ≠ pos →
    le l[i] l[parentIdx i] = true

/-- Both children of the hole `pos` (if any) are `le` the value `x`. -/
def HoleChildrenLe (le : α → α → Bool) (l : List α) (pos : Nat) (x : α) : Prop :=
  ∀ i, ∀ hi : i < l.length, i ≠ 0 → parentIdx i = pos →
    le l[i] x = true

/-! ### Task model (`src/os5/src/task`, `src/os5/src/sync`)

`task.rs` is not among the given sources; the `TCBInner` fields and their
types below are exactly those read and written by `manager.rs`,
`processor.rs` and `mod.rs`.  Machine integers (`isize`, `i32`, `usize`)
are modelled as unbounded `Int`/`Nat`; none of the operations modelled
here can overflow 64 bits from a reachable state.  `Arc<TaskControlBlock>`
handles are modelled by pids. -/
/-- Task states (`TaskStatus`, re-exported by `task/mod.rs`). -/
inductive TaskStatus where
  | UnInit
  | Ready
  | Running
  | Zombie
deriving DecidableEq

/-- Mutable inner record of a task control block (behind its
`UPSafeCell`): saved context, status, parent and children links, exit
code, stride-scheduling fields, syscall counters, first-dispatch stamp. -/
structure TCBInner where
  task_cx : Nat
  task_status : TaskStatus
  parent : Option Nat
  children : List Nat
  exit_code : Int
  stride : Int
  priority : Int
  syscall_times : Nat → Nat
  start_time_ms : Nat

/-- Kernel state visible to this core: per-pid task records, the
processor current slot (`Processor.current`), the `TaskManager` ready
queue (the backing vector of the `BinaryHeap`, holding pids for the
`Arc` handles), and the pid of `INITPROC`. -/
structure KState where
  tasks : Nat → TCBInner
  current : Option Nat
  ready : List Nat
  init_pid : Nat

/-- The `StrideComparator` ordering (manager.rs 17-44): comparisons read
the two tasks live `stride` fields and reverse the order, so that the
max-heap `BinaryHeap` yields the minimum stride; `self ≤ other` iff
`other.stride ≤ self.stride`. -/
def strideLe (tasks : Nat → TCBInner) (i j : Nat) : Bool :=
  decide ((tasks j).stride ≤ (tasks i).stride)

/-- The literal `6469693230` used in `TaskManager::fetch`. -/
def BIG_STRIDE : Int := 6469693230

/-- Model of `TaskManager::add` (manager.rs 95-99): push onto the ready heap (the
debug `println!` is I/O only). -/
def addTask (s : KState) (t : Nat) : KState :=
  { s with ready := heapPush (strideLe s.tasks) s.ready t }

/-- Model of `TaskManager::fetch` (manager.rs 102-109): pop the heap; before
returning the task, advance its stride by `6469693230 / priority`
(Rust `isize` division truncates toward zero: `Int.tdiv`).  An empty
queue returns `none` and changes nothing. -/
def fetchTask (s : KState) : Option Nat × KState :=
  match heapPop (strideLe s.tasks) s.ready with
  | none => (none, s)
  | some (t, rest) =>
    (some t,
      { s with
        ready := rest
        tasks := fun p =>
          if p = t then
            { s.tasks t with
              stride := (s.tasks t).stride + Int.tdiv BIG_STRIDE (s.tasks t).priority }
          else s.tasks p })

/-- Model of `suspend_current_and_run_next` (task/mod.rs 40-56): `take_current`
(`unwrap` panics when no task is running: modelled as `none`), set the
status to `Ready`, re-add the task to the ready queue; the final
`schedule` call only transfers control. -/
def suspend_current_and_run_next (s : KState) : Option KState :=
  match s.current with
  | none => none
  | some t =>
    let tasks1 := fun p =>
      if p = t then { s.tasks t with task_status := TaskStatus.Ready }
      else s.tasks p
    some (addTask { s with tasks := tasks1, current := none } t)

/-- Model of `exit_current_and_run_next` (task/mod.rs 59-93): `take_current`
(`unwrap` panics when absent), mark the task `Zombie`, record the exit
code, rewrite every child parent link to `INITPROC` while appending the
children to `INITPROC` children list, then clear the exiting task own
children.  Taking `INITPROC` cell (or a child cell) while the exiting
task cell is already held is a double-borrow panic, so the cases
`t = init` and `t ∈ children t` / `init ∈ children t` (unreachable in
real process trees) are modelled as `none`.
`memory_set.recycle_data_pages()` belongs to the out-of-scope
address-space collaborator. -/
def exit_current_and_run_next (code : Int) (s : KState) : Option KState :=
  match s.current with
  | none => none
  | some t =>
    if t = s.init_pid ∨ t ∈ (s.tasks t).children ∨ s.init_pid ∈ (s.tasks t).children
    then none
    else
      some
        { s with
          current := none
          tasks := fun p =>
            if p = t then
              { s.tasks t with
                task_status := TaskStatus.Zombie
                exit_code := code
                children := [] }
            else if p = s.init_pid then
              { s.tasks p with
                children := (s.tasks s.init_pid).children ++ (s.tasks t).children }
            else if p ∈ (s.tasks t).children then
              { s.tasks p with parent := some s.init_pid }
            else s.tasks p }

/-- Model of `set_current_task_priority` (task/mod.rs 112-117): returns `none`
when no task is current; performs no validation of the value. -/
def set_current_task_priority (priority : Int) (s : KState) : Option KState :=
  match s.current with
  | none => none
  | some t =>
    some { s with tasks := fun p =>
      if p = t then { s.tasks t with priority := priority } else s.tasks p }

/-- One iteration of `run_tasks` that found a task (processor.rs 65-92):
`fetch_task()`, mark it `Running`, stamp `start_time_ms` on first
dispatch, install it as the processor current task, switch into it. -/
def run_tasks_step (s : KState) (now : Nat) : KState :=
  match fetchTask s with
  | (none, s1) => s1
  | (some t, s1) =>
    { s1 with
      current := some t
      tasks := fun p =>
        if p = t then
          { s1.tasks t with
            task_status := TaskStatus.Running
            start_time_ms :=
              if (s1.tasks t).start_time_ms = 0 then now
              else (s1.tasks t).start_time_ms }
        else s1.tasks p }

/-- Modelled from the spec: the system-call layer that invokes
`set_current_task_priority` is not among the given sources; per the spec
the caller "must enforce priority ≥ 1 before calling", rejecting a zero
or negative priority before it can reach the scheduler core. -/
def sys_set_priority (priority : Int) (s : KState) : Option KState :=
  if 1 ≤ priority then set_current_task_priority priority s else none

/-- The operations of this core. -/
inductive CoreOp where
  | add (t : Nat)
  | fetch
  | runStep (now : Nat)
  | suspend
  | exit (code : Int)
  | setPrio (p : Int)

/-- Apply one core operation exactly as the code implements it; an
operation that panics or fails leaves the state unchanged. -/
def applyOp (o : CoreOp) (s : KState) : KState :=
  match o with
  | CoreOp.add t => addTask s t
  | CoreOp.fetch => (fetchTask s).2
  | CoreOp.runStep now => run_tasks_step s now
  | CoreOp.suspend => (suspend_current_and_run_next s).getD s
  | CoreOp.exit c => (exit_current_and_run_next c s).getD s
  | CoreOp.setPrio p => (set_current_task_priority p s).getD s

/-- Apply one core operation with the spec-modelled syscall-layer
validation in front of `set_current_task_priority`. -/
def applyChecked (o : CoreOp) (s : KState) : KState :=
  match o with
  | CoreOp.setPrio p => (sys_set_priority p s).getD s
  | o => applyOp o s

/-- Run a sequence of validated operations. -/
def runChecked (ops : List CoreOp) (s : KState) : KState :=
  ops.foldl (fun s o => applyChecked o s) s

/-- Documented invariant: every task priority is at least 1. -/
def PrioInv (s : KState) : Prop := ∀ p : Nat, 1 ≤ (s.tasks p).priority

/-! ### `UPSafeCell` (`src/os5/src/sync/up.rs`) -/
/-- Model of `UPSafeCell`: a named `RefCell`; the runtime mutable-borrow flag of
the `RefCell` is modelled explicitly (`borrowed = true` exactly while a
`RefMutWrapper` guard is alive). -/
structure UPSafeCell (T : Type) where
  name : String
  value : T
  borrowed : Bool

/-- Model of `UPSafeCell::new` (up.rs 27-33): captures the Debug format of the
value as the cell name; no guard outstanding. -/
def UPSafeCell.new (debugName : String) (v : T) : UPSafeCell T :=
  { name := debugName, value := v, borrowed := false }

/-- Model of `UPSafeCell::exclusive_access` (up.rs 35-45): `try_borrow_mut`; on
success, a guard grants access to the value (modelled as the value
together with the cell in its borrowed state); while a previous guard is
alive the call panics with the message naming the cell. -/
def UPSafeCell.exclusive_access (c : UPSafeCell T) :
    Except String (T × UPSafeCell T) :=
  if c.borrowed then Except.error ("[" ++ c.name ++ "] has been borrowed")
  else Except.ok (c.value, { c with borrowed := true })

/-- Dropping the guard ends the borrow (up.rs 67-73). -/
def UPSafeCell.release (c : UPSafeCell T) : UPSafeCell T :=
  { c with borrowed := false }

/-! ### `current_task_mmap` (task/mod.rs 133-155) -/
/-- Page size (`PAGE_SIZE`): `config.rs` is not among the given sources; the spec
fixes the page size at 4096. -/
def PAGE_SIZE : Nat := 4096

/-- Rust 64-bit `usize` complement of `0b111`, as in `port & !0b111`. -/
def USIZE_NOT_7 : Nat := 2 ^ 64 - 8

/-- Bit value of `MapPermission::U` of the out-of-scope mm collaborator: bit 4 of the
PTE-flag mirror (the low three `port` bits shifted left by one are
R/W/X at bits 1-3). -/
def MapPermission_U : Nat := 16

/-- Model of `MapPermission::from_bits` on a `u8`: `some` exactly when only the
R/W/X/U flag bits (mask `0b11110`) are set. -/
def MapPermission_from_bits (b : Nat) : Option Nat :=
  if b &&& (255 - 30) = 0 then some b else none

/-- Interface of the out-of-scope address-space collaborator
(`MemorySet`) over an abstract memory-set type: the conflict query and
the framed-area insertion taking a permission bit set. -/
structure MMCollab (M : Type) where
  is_conflict : M → Nat → Nat → Bool
  insert_framed_area : M → Nat → Nat → Nat → Option M

/-- Model of `VirtAddr::from(start + len).ceil().into()`: round up to the next
page boundary. -/
def ceilPage (a : Nat) : Nat := (a + PAGE_SIZE - 1) / PAGE_SIZE * PAGE_SIZE

/-- Model of `current_task_mmap` (task/mod.rs 133-155).  `cur` is the processor
current task (pid and its memory set); the result is `some` of the new
memory set exactly when a mapping was delegated to the collaborator and
succeeded, `none` on any failure (in which case nothing was changed:
the checks all precede the only collaborator mutation). -/
def current_task_mmap (mc : MMCollab M) (cur : Option (Nat × M))
    (start len port : Nat) : Option M :=
  if start &&& (PAGE_SIZE - 1) ≠ 0 then none
  else if port &&& USIZE_NOT_7 ≠ 0 ∨ port &&& 7 = 0 then none
  else
    let start_va := start
    let end_va := ceilPage (start + len)
    match cur with
    | none => none
    | some (_, memory_set) =>
      if mc.is_conflict memory_set start_va end_va then none
      else
        match MapPermission_from_bits ((port <<< 1) % 256) with
        | none => none
        | some bits =>
          mc.insert_framed_area memory_set start_va end_va
            (bits ||| MapPermission_U)

/-! ### Scheduler-level reachability and invariants -/
/-- States reachable from `s0` by sequences of Scheduler `add`/`fetch`
calls, where (as the kernel guarantees through the status machine) a task
is never added while it is still enqueued. -/
inductive SchedReach : KState → KState → Prop where
  | refl (s : KState) : SchedReach s s
  | add (s0 s : KState) (t : Nat) :
      SchedReach s0 s → t ∉ s.ready → SchedReach s0 (addTask s t)
  | fetch (s0 s : KState) : SchedReach s0 s → SchedReach s0 (fetchTask s).2

/-- Scheduler invariant: the backing vector is heap-shaped for the live
stride comparator, and no task handle is enqueued twice. -/
def SchedInv (s : KState) : Prop :=
  IsHeap (strideLe s.tasks) s.ready ∧ s.ready.Nodup

/-- A fixed inner record for concrete example states. -/
def exInner : TCBInner :=
  { task_cx := 0, task_status := TaskStatus.Ready, parent := none,
    children := [], exit_code := 0, stride := 0, priority := 16,
    syscall_times := fun _ => 0, start_time_ms := 0 }

/-- Empty-scheduler example state; every task record is `exInner`. -/
def exSched0 : KState :=
  { tasks := fun _ => exInner, current := none, ready := [], init_pid := 0 }

/-- State after adding tasks 1,2,3,4 (all at stride 0, in this order)
and fetching once. -/
def exSched5 : KState :=
  (fetchTask (addTask (addTask (addTask (addTask exSched0 1) 2) 3) 4)).2

/-- Example state with a single enqueued task 5 at priority 2. -/
def exC2 : KState :=
  { tasks := fun p => if p = 5 then { exInner with priority := 2 } else exInner,
    current := none, ready := [5], init_pid := 0 }

/-- Example state for exit: task 1 (current) has child 2; `INITPROC` is
pid 0 with child 1. -/
def exC3 : KState :=
  { tasks := fun p =>
      if p = 1 then { exInner with children := [2], task_status := TaskStatus.Running }
      else if p = 0 then { exInner with children := [1] }
      else { exInner with parent := some 1 },
    current := some 1, ready := [], init_pid := 0 }

/-- The state after task 1 exits with code 9. -/
def exC3After : KState := (exit_current_and_run_next 9 exC3).getD exC3

/-- Example state for suspend: task 3 is current, nothing enqueued. -/
def exC4 : KState :=
  { tasks := fun _ => { exInner with task_status := TaskStatus.Running },
    current := some 3, ready := [], init_pid := 0 }

/-- The state after suspending task 3. -/
def exC4After : KState := (suspend_current_and_run_next exC4).getD exC4

/-- Example state for the C6 counterexample: task 0 is current and
running at priority 1, stride 0. -/
def exC6 : KState :=
  { tasks := fun _ =>
      { exInner with priority := 1, task_status := TaskStatus.Running },
    current := some 0, ready := [], init_pid := 0 }

/-- Example address-space collaborators with no conflicts and with a
universal conflict. -/
def exMC : MMCollab Nat :=
  { is_conflict := fun _ _ _ => false,
    insert_framed_area := fun m s e p => some (m + s + e + p) }

def exMCConf : MMCollab Nat :=
  { is_conflict := fun _ _ _ => true,
    insert_framed_area := fun m s e p => some (m + s + e + p) }

/-- Example cell named after its wrapped value's Debug format. -/
def exCell : UPSafeCell Nat := UPSafeCell.new "TaskManager" 0

/-! ### Theorems -/

/-! ### Generic list helpers -/
theorem getD_in_range (l : List α) (d : α) {i : Nat} (h : i < l.length) :
    l.getD i d = l[i] := by
  simp [List.getD_eq_getElem?_getD, List.getElem?_eq_getElem h]

theorem set_take_drop (a : α) :
    ∀ (l : List α) (i : Nat), i < l.length →
      l.set i a = l.take i ++ a :: l.drop (i + 1)
  | [], i, h => absurd h (by simp)
  | _ :: tl, 0, _ => rfl
  | hd :: tl, i + 1, h => by
    simp only [List.set, List.take, List.drop, List.cons_append, List.cons.injEq, true_and]
    exact set_take_drop a tl i (by simpa using h)

theorem set_get_self (l : List α) {i : Nat} (h : i < l.length) :
    l.set i l[i] = l := by
  apply List.ext_getElem
  · simp
  · intro n h1 h2
    rw [List.getElem_set]
    split
    · simp_all
    · rfl

/-- Overwriting two distinct positions with swapped values yields a
permutation of overwriting them the other way around. -/
theorem set_set_swap :
    ∀ (l : List α) (i j : Nat) (a b : α), i < l.length → j < l.length → i ≠ j →
      List.Perm ((l.set i a).set j b) ((l.set i b).set j a)
  | [], i, j, a, b, hi, _, _ => by simp at hi
  | hd :: tl, 0, 0, a, b, _, _, hne => absurd rfl hne
  | hd :: tl, 0, j + 1, a, b, hi, hj, _ => by
    have hj' : j < tl.length := by simpa using hj
    simp only [List.set]
    rw [set_take_drop b tl j hj', set_take_drop a tl j hj']
    exact ((List.perm_middle.cons a).trans (List.Perm.swap b a _)).trans
      (List.perm_middle.symm.cons b)
  | hd :: tl, i + 1, 0, a, b, hi, hj, _ => by
    have hi' : i < tl.length := by simpa using hi
    simp only [List.set]
    rw [set_take_drop a tl i hi', set_take_drop b tl i hi']
    exact ((List.perm_middle.cons b).trans (List.Perm.swap a b _)).trans
      (List.perm_middle.symm.cons a)
  | hd :: tl, i + 1, j + 1, a, b, hi, hj, hne => by
    simp only [List.set]
    exact (set_set_swap tl i j a b (by simpa using hi) (by simpa using hj)
      (fun h => hne (by omega))).cons hd

/-! ### Length and permutation facts for the heap operations -/
theorem parentIdx_lt {pos : Nat} (h : pos ≠ 0) : parentIdx pos < pos := by
  simp only [parentIdx]; omega

theorem siftUpGo_length (le : α → α → Bool) (x : α) :
    ∀ (l : List α) (pos : Nat), (siftUpGo le x l pos).length = l.length := by
  intro l pos
  induction l, pos using siftUpGo.induct le x with
  | case1 l => rw [siftUpGo]; simp
  | case2 l pos h1 h2 => rw [siftUpGo, if_neg h1, if_pos h2]; simp
  | case3 l pos h1 h2 ih => rw [siftUpGo, if_neg h1, if_neg h2, ih]; simp

/-- Moving the value at `c` into the hole at `pos` and then writing `y`
into `c` permutes to simply writing `y` into `pos`. -/
theorem set_promote_perm (l : List α) {pos c : Nat} (hpos : pos < l.length)
    (hc : c < l.length) (hne : pos ≠ c) (y : α) :
    List.Perm ((l.set pos l[c]).set c y) (l.set pos y) := by
  refine (set_set_swap l pos c (l[c]) y hpos hc hne).trans ?_
  have hc2 : c < (l.set pos y).length := by rw [List.length_set]; exact hc
  have hgp : (l.set pos y)[c] = l[c] := List.getElem_set_ne hne hc2
  have heq : (l.set pos y).set c l[c] = l.set pos y := by
    conv_lhs => rw [← hgp]
    exact set_get_self _ hc2
  rw [heq]

theorem siftUpGo_perm (le : α → α → Bool) (x : α) :
    ∀ (l : List α) (pos : Nat), pos < l.length →
      List.Perm (siftUpGo le x l pos) (l.set pos x) := by
  intro l pos
  induction l, pos using siftUpGo.induct le x with
  | case1 l => intro _; rw [siftUpGo]; simp
  | case2 l pos h1 h2 => intro _; rw [siftUpGo, if_neg h1, if_pos h2]
  | case3 l pos h1 h2 ih =>
    intro hpos
    have hplt : parentIdx pos < pos := parentIdx_lt h1
    have hp : parentIdx pos < l.length := Nat.lt_trans hplt hpos
    have hne : parentIdx pos ≠ pos := Nat.ne_of_lt hplt
    rw [siftUpGo, if_neg h1, if_neg h2]
    have ih' := ih (by rw [List.length_set]; exact Nat.lt_trans hplt hpos)
    refine ih'.trans ?_
    rw [getD_in_range l x hp]
    exact set_promote_perm l hpos hp (Ne.symm hne) x

theorem siftDownGo_length (le : α → α → Bool) (x : α) :
    ∀ (l : List α) (pos : Nat), (siftDownGo le x l pos).1.length = l.length := by
  intro l pos
  induction l, pos using siftDownGo.induct le x with
  | case1 l pos h hle ih => rw [siftDownGo, dif_pos h, if_pos hle, ih]; simp
  | case2 l pos h hle ih => rw [siftDownGo, dif_pos h, if_neg hle, ih]; simp
  | case3 l pos h heq => rw [siftDownGo, dif_neg h, if_pos heq]; simp
  | case4 l pos h heq => rw [siftDownGo, dif_neg h, if_neg heq]

theorem siftDownGo_snd_lt (le : α → α → Bool) (x : α) :
    ∀ (l : List α) (pos : Nat), pos < l.length →
      (siftDownGo le x l pos).2 < l.length := by
  intro l pos
  induction l, pos using siftDownGo.induct le x with
  | case1 l pos h hle ih =>
    intro _
    rw [siftDownGo, dif_pos h, if_pos hle]
    have := ih (by rw [List.length_set]; omega)
    rw [List.length_set] at this
    exact this
  | case2 l pos h hle ih =>
    intro _
    rw [siftDownGo, dif_pos h, if_neg hle]
    have := ih (by rw [List.length_set]; omega)
    rw [List.length_set] at this
    exact this
  | case3 l pos h heq =>
    intro hpos
    rw [siftDownGo, dif_neg h, if_pos heq]
    simp only
    omega
  | case4 l pos h heq =>
    intro hpos
    rw [siftDownGo, dif_neg h, if_neg heq]
    exact hpos

theorem siftDownGo_set_perm (le : α → α → Bool) (x : α) :
    ∀ (l : List α) (pos : Nat), pos < l.length → ∀ y : α,
      List.Perm ((siftDownGo le x l pos).1.set (siftDownGo le x l pos).2 y)
        (l.set pos y) := by
  intro l pos
  induction l, pos using siftDownGo.induct le x with
  | case1 l pos h hle ih =>
    intro hpos y
    have hc : 2 * pos + 2 < l.length := by omega
    rw [siftDownGo, dif_pos h, if_pos hle]
    refine (ih (by rw [List.length_set]; exact hc) y).trans ?_
    rw [getD_in_range l x hc]
    exact set_promote_perm l hpos hc (by omega) y
  | case2 l pos h hle ih =>
    intro hpos y
    have hc : 2 * pos + 1 < l.length := by omega
    rw [siftDownGo, dif_pos h, if_neg hle]
    refine (ih (by rw [List.length_set]; exact hc) y).trans ?_
    rw [getD_in_range l x hc]
    exact set_promote_perm l hpos hc (by omega) y
  | case3 l pos h heq =>
    intro hpos y
    have hc : 2 * pos + 1 < l.length := by omega
    rw [siftDownGo, dif_neg h, if_pos heq]
    simp only
    rw [getD_in_range l x hc]
    exact set_promote_perm l hpos hc (by omega) y
  | case4 l pos h heq =>
    intro hpos y
    rw [siftDownGo, dif_neg h, if_neg heq]

theorem heapPush_length (le : α → α → Bool) (l : List α) (x : α) :
    (heapPush le l x).length = l.length + 1 := by
  rw [heapPush, siftUpGo_length]; simp

/-- Push inserts exactly the pushed element: the new heap is a
permutation of `x :: l`. -/
theorem heapPush_perm (le : α → α → Bool) (l : List α) (x : α) :
    List.Perm (heapPush le l x) (x :: l) := by
  have hlen : l.length < (l ++ [x]).length := by
    simp only [List.length_append, List.length_cons, List.length_nil]
    omega
  have h1 := siftUpGo_perm le x (l ++ [x]) l.length hlen
  rw [heapPush]
  refine h1.trans ?_
  have hset : (l ++ [x]).set l.length x = l ++ [x] := by
    rw [set_take_drop x (l ++ [x]) l.length hlen, List.take_left,
      List.drop_eq_nil_of_le (by simp)]
  rw [hset]
  exact List.perm_append_singleton x l

/-- The vector is its own `dropLast` followed by its last element. -/
theorem dropLast_concat_getLastD :
    ∀ (a : α) (tl : List α), (a :: tl).dropLast ++ [tl.getLastD a] = a :: tl
  | _, [] => rfl
  | a, b :: tl => by
    have ih := dropLast_concat_getLastD b tl
    rw [List.dropLast_cons₂, List.getLastD_cons, List.cons_append, ih]

theorem heapPop_pos (le : α → α → Bool) {l rest : List α} {e : α}
    (h : heapPop le l = some (e, rest)) : 0 < l.length := by
  cases l with
  | nil => simp [heapPop] at h
  | cons hd tl => simp

/-- Pop returns the root of the heap (slot 0 of the backing vector). -/
theorem heapPop_root (le : α → α → Bool) {l rest : List α} {e : α}
    (h : heapPop le l = some (e, rest)) (h0 : 0 < l.length) : e = l[0] := by
  cases l with
  | nil => simp at h0
  | cons a0 tl =>
  rw [heapPop] at h
  simp only at h
  by_cases hemp : (a0 :: tl).dropLast.isEmpty
  · rw [if_pos hemp] at h
    injection h with h'
    injection h' with h1 h2
    have hlen1 : (a0 :: tl).length = 1 := by
      have hnil := List.isEmpty_iff.mp hemp
      have hl2 := congrArg List.length hnil
      simp at hl2
      simp [hl2]
    have htl : tl = [] := by
      simp at hlen1
      exact hlen1
    subst htl
    rw [← h1]; rfl
  · rw [if_neg hemp] at h
    injection h with h'
    injection h' with h1 h2
    have hd0 : 0 < (a0 :: tl).dropLast.length :=
      List.length_pos.mpr (by simpa using hemp)
    rw [← h1, getD_in_range _ _ hd0]
    exact List.getElem_dropLast _ 0 hd0

/-- Pop removes exactly the returned element: the original heap is a
permutation of the returned element consed onto the remaining heap. -/
theorem heapPop_perm (le : α → α → Bool) {l rest : List α} {e : α}
    (h : heapPop le l = some (e, rest)) : List.Perm l (e :: rest) := by
  cases l with
  | nil => simp [heapPop] at h
  | cons a0 tl =>
  rw [heapPop] at h
  simp only at h
  by_cases hemp : (a0 :: tl).dropLast.isEmpty
  · rw [if_pos hemp] at h
    injection h with h'
    injection h' with h1 h2
    have hnil := List.isEmpty_iff.mp hemp
    have htl : tl = [] := by
      have hlen := congrArg List.length hnil
      simp at hlen
      exact hlen
    subst htl
    rw [← h2, ← h1]
    exact List.Perm.refl _
  · rw [if_neg hemp] at h
    injection h with h'
    injection h' with h1 h2
    have hd0 : 0 < (a0 :: tl).dropLast.length :=
      List.length_pos.mpr (by simpa using hemp)
    have hconcat := dropLast_concat_getLastD a0 tl
    cases hD : (a0 :: tl).dropLast with
    | nil => rw [hD] at hd0; simp at hd0
    | cons hd Dt =>
    rw [hD] at h1 h2 hconcat
    have he : e = hd := by rw [← h1]; rfl
    -- the remaining heap is a permutation of `last :: Dt`
    have hlen1 : (0 : Nat) <
        ((hd :: Dt).set 0 (tl.getLastD a0)).length := by simp
    have hq := siftDownGo_snd_lt le (tl.getLastD a0)
      ((hd :: Dt).set 0 (tl.getLastD a0)) 0 hlen1
    have hlensd := siftDownGo_length le (tl.getLastD a0)
      ((hd :: Dt).set 0 (tl.getLastD a0)) 0
    have hperm1 := siftUpGo_perm le (tl.getLastD a0)
      (siftDownGo le (tl.getLastD a0) ((hd :: Dt).set 0 (tl.getLastD a0)) 0).1
      (siftDownGo le (tl.getLastD a0) ((hd :: Dt).set 0 (tl.getLastD a0)) 0).2
      (by rw [hlensd]; exact hq)
    have hperm2 := siftDownGo_set_perm le (tl.getLastD a0)
      ((hd :: Dt).set 0 (tl.getLastD a0)) 0 hlen1 (tl.getLastD a0)
    rw [List.set_set] at hperm2
    have hrest : List.Perm rest ((hd :: Dt).set 0 (tl.getLastD a0)) := by
      rw [← h2]
      exact hperm1.trans hperm2
    have hsplit : a0 :: tl = (hd :: Dt) ++ [tl.getLastD a0] := hconcat.symm
    rw [hsplit, he]
    show List.Perm (hd :: (Dt ++ [tl.getLastD a0])) (hd :: rest)
    refine List.Perm.cons hd ?_
    refine (List.perm_append_singleton _ _).trans ?_
    exact hrest.symm

theorem le_refl_of_total {le : α → α → Bool} (htot : LeTotal le) (x : α) :
    le x x = true := by
  rcases htot x x with h | h <;> exact h

theorem getElem_congr_idx (l : List α) {i j : Nat} (hij : i = j)
    (hi : i < l.length) (hj : j < l.length) : l[i] = l[j] := by
  subst hij; rfl

theorem getElem_set_at (l : List α) (v : α) {p j : Nat} (hpj : p = j)
    (hj : j < (l.set p v).length) : (l.set p v)[j] = v := by
  subst hpj; exact List.getElem_set_self hj

theorem isHeap_le_root {le : α → α → Bool} (htot : LeTotal le) (htr : LeTrans le)
    (l : List α) (hheap : IsHeap le l) :
    ∀ i, ∀ hi : i < l.length, ∀ h0 : 0 < l.length,
      le l[i] l[0] = true := by
  intro i
  induction i using Nat.strong_induction_on with
  | _ i ih =>
    intro hi h0
    by_cases hz : i = 0
    · subst hz; exact le_refl_of_total htot _
    · have hplt : parentIdx i < i := parentIdx_lt hz
      have hp : parentIdx i < l.length := Nat.lt_trans hplt hi
      exact htr _ _ _ (hheap i hi hp hz) (ih (parentIdx i) hplt hp h0)

/-- Core sift-up correctness: starting from a heap-except-hole
configuration whose hole children are dominated both by the inserted
element and by the hole's parent, `siftUpGo` restores the heap shape. -/
theorem siftUpGo_isHeap {le : α → α → Bool} (htot : LeTotal le) (htr : LeTrans le)
    (x : α) :
    ∀ (l : List α) (pos : Nat), pos < l.length →
      HeapExcept le l pos →
      HoleChildrenLe le l pos x →
      (∀ hp : parentIdx pos < l.length, pos ≠ 0 →
        HoleChildrenLe le l pos l[parentIdx pos]) →
      IsHeap le (siftUpGo le x l pos) := by
  intro l pos
  induction l, pos using siftUpGo.induct le x with
  | case1 l =>
    intro hpos H1 H2 _
    rw [siftUpGo]
    simp only [if_pos]
    intro i hi hp hne
    have hi' : i < l.length := by simpa using hi
    have hp' : parentIdx i < l.length := by simpa using hp
    by_cases hpi : parentIdx i = 0
    · rw [List.getElem_set_ne (Ne.symm hne) hi, getElem_set_at l x hpi.symm hp]
      exact H2 i hi' hne hpi
    · rw [List.getElem_set_ne (Ne.symm hne) hi,
        List.getElem_set_ne (fun hh => hpi hh.symm) hp]
      exact H1 i hi' hp' hne hne hpi
  | case2 l pos h1 h2 =>
    intro hpos H1 H2 _
    have hplt : parentIdx pos < pos := parentIdx_lt h1
    have hp0 : parentIdx pos < l.length := Nat.lt_trans hplt hpos
    rw [siftUpGo, if_neg h1, if_pos h2]
    rw [getD_in_range l x hp0] at h2
    intro i hi hp hne
    have hi' : i < l.length := by simpa using hi
    have hpar' : parentIdx i < l.length := by simpa using hp
    by_cases hip : i = pos
    · have hne2 : pos ≠ parentIdx i := by
        rw [hip]
        exact (Nat.ne_of_lt hplt).symm
      rw [getElem_set_at l x hip.symm hi, List.getElem_set_ne hne2 hp]
      have : l[parentIdx i] = l[parentIdx pos] :=
        getElem_congr_idx l (by rw [hip]) hpar' hp0
      rw [this]
      exact h2
    · by_cases hpi : parentIdx i = pos
      · rw [List.getElem_set_ne (fun hh => hip hh.symm) hi,
          getElem_set_at l x hpi.symm hp]
        exact H2 i hi' hne hpi
      · rw [List.getElem_set_ne (fun hh => hip hh.symm) hi,
          List.getElem_set_ne (fun hh => hpi hh.symm) hp]
        exact H1 i hi' hpar' hne hip hpi
  | case3 l pos h1 h2 ih =>
    intro hpos H1 H2 H2b
    have hplt : parentIdx pos < pos := parentIdx_lt h1
    have hp0 : parentIdx pos < l.length := Nat.lt_trans hplt hpos
    have hpvx : le l[parentIdx pos] x = true := by
      rcases htot (l[parentIdx pos]) x with hh | hh
      · exact hh
      · exfalso
        apply h2
        rw [getD_in_range l x hp0]
        exact hh
    rw [siftUpGo, if_neg h1, if_neg h2]
    refine ih ?_ ?_ ?_ ?_
    · rw [List.length_set]; exact hp0
    · -- HeapExcept at the new hole (the parent slot)
      intro i hi hp hne hnp hnpp
      have hi' : i < l.length := by simpa using hi
      have hpar' : parentIdx i < l.length := by simpa using hp
      by_cases hip : i = pos
      · exfalso; apply hnpp; rw [hip]
      · by_cases hpi : parentIdx i = pos
        · rw [List.getElem_set_ne (fun hh => hip hh.symm) hi,
            getElem_set_at _ _ hpi.symm hp]
          have hb := H2b hp0 h1 i hi' hne hpi
          rw [← getD_in_range l x hp0] at hb
          exact hb
        · rw [List.getElem_set_ne (fun hh => hip hh.symm) hi,
            List.getElem_set_ne (fun hh => hpi hh.symm) hp]
          exact H1 i hi' hpar' hne hip hpi
    · -- children of the new hole are dominated by x
      intro i hi hne hpi
      have hi' : i < l.length := by simpa using hi
      by_cases hip : i = pos
      · rw [getElem_set_at _ _ hip.symm hi]
        have hbx := hpvx
        rw [← getD_in_range l x hp0] at hbx
        exact hbx
      · rw [List.getElem_set_ne (fun hh => hip hh.symm) hi]
        have hpar2 : parentIdx i < l.length := by rw [hpi]; exact hp0
        have hstep := H1 i hi' hpar2 hne hip (by rw [hpi]; exact Nat.ne_of_lt hplt)
        rw [getElem_congr_idx l hpi hpar2 hp0] at hstep
        exact htr _ _ _ hstep hpvx
    · -- children of the new hole are dominated by its own parent
      intro hpp hpne0 i hi hne hpi
      have hi' : i < l.length := by simpa using hi
      have hpp' : parentIdx (parentIdx pos) < l.length := by simpa using hpp
      have hppne : parentIdx (parentIdx pos) ≠ pos :=
        Nat.ne_of_lt (Nat.lt_trans (parentIdx_lt hpne0) hplt)
      have hpv_pp : le l[parentIdx pos] (l[parentIdx (parentIdx pos)]) = true :=
        H1 (parentIdx pos) hp0 hpp' hpne0 (Nat.ne_of_lt hplt) hppne
    -- value stored at the hole's parent slot in the shifted list
      have hslot : (l.set pos (l.getD (parentIdx pos) x))[parentIdx (parentIdx pos)]
          = l[parentIdx (parentIdx pos)] :=
        List.getElem_set_ne (fun hh => hppne hh.symm) hpp
      rw [hslot]
      by_cases hip : i = pos
      · rw [getElem_set_at _ _ hip.symm hi]
        have hbp := hpv_pp
        rw [← getD_in_range l x hp0] at hbp
        exact hbp
      · rw [List.getElem_set_ne (fun hh => hip hh.symm) hi]
        have hpar2 : parentIdx i < l.length := by rw [hpi]; exact hp0
        have hstep := H1 i hi' hpar2 hne hip (by rw [hpi]; exact Nat.ne_of_lt hplt)
        rw [getElem_congr_idx l hpi hpar2 hp0] at hstep
        exact htr _ _ _ hstep hpv_pp

/-- Any in-range nonzero index is the left or the right child of its
parent. -/
theorem child_cases {i pos : Nat} (hne : i ≠ 0) (hpar : parentIdx i = pos) :
    i = 2 * pos + 1 ∨ i = 2 * pos + 2 := by
  simp only [parentIdx] at hpar
  omega

/-- Push preserves the heap shape. -/
theorem heapPush_isHeap {le : α → α → Bool} (htot : LeTotal le) (htr : LeTrans le)
    (l : List α) (x : α) (hheap : IsHeap le l) : IsHeap le (heapPush le l x) := by
  rw [heapPush]
  refine siftUpGo_isHeap htot htr x (l ++ [x]) l.length (by simp) ?_ ?_ ?_
  · intro i hi hp hne hnp _
    have hi' : i < l.length := by
      simp only [List.length_append, List.length_cons, List.length_nil] at hi
      omega
    have hp' : parentIdx i < l.length := Nat.lt_trans (parentIdx_lt hne) hi'
    rw [List.getElem_append_left hi', List.getElem_append_left hp']
    exact hheap i hi' hp' hne
  · intro i hi hne hpi
    exfalso
    rcases child_cases hne hpi with hcase | hcase <;>
      (simp only [List.length_append, List.length_cons, List.length_nil] at hi; omega)
  · intro hp hne i hi hne0 hpi
    exfalso
    rcases child_cases hne0 hpi with hcase | hcase <;>
      (simp only [List.length_append, List.length_cons, List.length_nil] at hi; omega)

/-- Descent phase of `sift_down_to_bottom`: starting from a
heap-except-hole configuration (with the hole's children dominated by the
hole's parent when it exists), the walk ends at a leaf with the
heap-except-hole shape intact. -/
theorem siftDownGo_invariant {le : α → α → Bool} (htot : LeTotal le)
    (htr : LeTrans le) (x : α) :
    ∀ (l : List α) (pos : Nat), pos < l.length →
      HeapExcept le l pos →
      (pos ≠ 0 → ∀ hp : parentIdx pos < l.length,
        HoleChildrenLe le l pos l[parentIdx pos]) →
      HeapExcept le (siftDownGo le x l pos).1 (siftDownGo le x l pos).2 ∧
        l.length ≤ 2 * (siftDownGo le x l pos).2 + 1 := by
  intro l pos
  induction l, pos using siftDownGo.induct le x with
  | case1 l pos h hle ih =>
    intro hpos H1 Hc
    have hs : 2 * pos + 1 < l.length := by omega
    have hc : 2 * pos + 2 < l.length := by omega
    have hle2 : le l[2 * pos + 1] l[2 * pos + 2] = true := by
      rw [← getD_in_range l x hs, ← getD_in_range l x hc]
      exact hle
    have hparc : parentIdx (2 * pos + 2) = pos := by simp only [parentIdx]; omega
    rw [siftDownGo, dif_pos h, if_pos hle]
    have hmain := ih (by rw [List.length_set]; exact hc) ?_ ?_
    · refine ⟨hmain.1, ?_⟩
      have := hmain.2
      rw [List.length_set] at this
      exact this
    · -- HeapExcept of the shifted list at the new hole 2*pos+2
      intro i hi hp hne hnc hnpc
      have hi' : i < l.length := by simpa using hi
      have hp' : parentIdx i < l.length := by simpa using hp
      by_cases hip : i = pos
      · have hpos0 : pos ≠ 0 := by rw [← hip]; exact hne
        have hplt : parentIdx pos < pos := parentIdx_lt hpos0
        have hp0 : parentIdx pos < l.length := Nat.lt_trans hplt hpos
        have hb := Hc hpos0 hp0 (2 * pos + 2) hc (by omega) hparc
        rw [← getD_in_range l x hc] at hb
        rw [getElem_set_at l _ hip.symm hi]
        have hnep : pos ≠ parentIdx i := by
          rw [hip]; exact (Nat.ne_of_lt hplt).symm
        rw [List.getElem_set_ne hnep hp]
        have : l[parentIdx i] = l[parentIdx pos] :=
          getElem_congr_idx l (by rw [hip]) hp' hp0
        rw [this]
        exact hb
      · by_cases hpi : parentIdx i = pos
        · have hsib : i = 2 * pos + 1 := by
            rcases child_cases hne hpi with hh | hh
            · exact hh
            · exact absurd hh hnc
          rw [List.getElem_set_ne (fun hh => hip hh.symm) hi,
            getElem_set_at l _ hpi.symm hp]
          have hb := hle2
          rw [← getD_in_range l x hc] at hb
          have : l[i] = l[2 * pos + 1] := getElem_congr_idx l hsib hi' hs
          rw [this]
          exact hb
        · rw [List.getElem_set_ne (fun hh => hip hh.symm) hi,
            List.getElem_set_ne (fun hh => hpi hh.symm) hp]
          exact H1 i hi' hp' hne hip hpi
    · -- children of the new hole are dominated by the promoted child
      intro _ hpc i hi hne hpi
      have hi' : i < l.length := by simpa using hi
      have hip : i ≠ pos := by
        rcases child_cases hne hpi with hh | hh <;> omega
      have hpip : parentIdx i ≠ pos := by rw [hpi]; omega
      have hpib : parentIdx i < l.length := by rw [hpi]; exact hc
      have hb := H1 i hi' hpib hne hip hpip
      have hidx : l[parentIdx i] = l[2 * pos + 2] :=
        getElem_congr_idx l hpi hpib hc
      rw [hidx] at hb
      rw [← getD_in_range l x hc] at hb
      rw [List.getElem_set_ne (fun hh => hip hh.symm) hi]
      have hslot : (l.set pos (l.getD (2 * pos + 2) x))[parentIdx (2 * pos + 2)]
          = l.getD (2 * pos + 2) x := getElem_set_at l _ hparc.symm hpc
      rw [hslot]
      exact hb
  | case2 l pos h hle ih =>
    intro hpos H1 Hc
    have hs : 2 * pos + 1 < l.length := by omega
    have hc : 2 * pos + 2 < l.length := by omega
    have hle2 : le l[2 * pos + 2] l[2 * pos + 1] = true := by
      rcases htot (l[2 * pos + 2]) (l[2 * pos + 1]) with hh | hh
      · exact hh
      · exfalso
        apply hle
        rw [getD_in_range l x hs, getD_in_range l x hc]
        exact hh
    have hparc : parentIdx (2 * pos + 1) = pos := by simp only [parentIdx]; omega
    rw [siftDownGo, dif_pos h, if_neg hle]
    have hmain := ih (by rw [List.length_set]; exact hs) ?_ ?_
    · refine ⟨hmain.1, ?_⟩
      have := hmain.2
      rw [List.length_set] at this
      exact this
    · intro i hi hp hne hnc hnpc
      have hi' : i < l.length := by simpa using hi
      have hp' : parentIdx i < l.length := by simpa using hp
      by_cases hip : i = pos
      · have hpos0 : pos ≠ 0 := by rw [← hip]; exact hne
        have hplt : parentIdx pos < pos := parentIdx_lt hpos0
        have hp0 : parentIdx pos < l.length := Nat.lt_trans hplt hpos
        have hb := Hc hpos0 hp0 (2 * pos + 1) hs (by omega) hparc
        rw [← getD_in_range l x hs] at hb
        rw [getElem_set_at l _ hip.symm hi]
        have hnep : pos ≠ parentIdx i := by
          rw [hip]; exact (Nat.ne_of_lt hplt).symm
        rw [List.getElem_set_ne hnep hp]
        have : l[parentIdx i] = l[parentIdx pos] :=
          getElem_congr_idx l (by rw [hip]) hp' hp0
        rw [this]
        exact hb
      · by_cases hpi : parentIdx i = pos
        · have hsib : i = 2 * pos + 2 := by
            rcases child_cases hne hpi with hh | hh
            · exact absurd hh hnc
            · exact hh
          rw [List.getElem_set_ne (fun hh => hip hh.symm) hi,
            getElem_set_at l _ hpi.symm hp]
          have hb := hle2
          rw [← getD_in_range l x hs] at hb
          have : l[i] = l[2 * pos + 2] := getElem_congr_idx l hsib hi' hc
          rw [this]
          exact hb
        · rw [List.getElem_set_ne (fun hh => hip hh.symm) hi,
            List.getElem_set_ne (fun hh => hpi hh.symm) hp]
          exact H1 i hi' hp' hne hip hpi
    · intro _ hpc i hi hne hpi
      have hi' : i < l.length := by simpa using hi
      have hip : i ≠ pos := by
        rcases child_cases hne hpi with hh | hh <;> omega
      have hpip : parentIdx i ≠ pos := by rw [hpi]; omega
      have hpib : parentIdx i < l.length := by rw [hpi]; exact hs
      have hb := H1 i hi' hpib hne hip hpip
      have hidx : l[parentIdx i] = l[2 * pos + 1] :=
        getElem_congr_idx l hpi hpib hs
      rw [hidx] at hb
      rw [← getD_in_range l x hs] at hb
      rw [List.getElem_set_ne (fun hh => hip hh.symm) hi]
      have hslot : (l.set pos (l.getD (2 * pos + 1) x))[parentIdx (2 * pos + 1)]
          = l.getD (2 * pos + 1) x := getElem_set_at l _ hparc.symm hpc
      rw [hslot]
      exact hb
  | case3 l pos h heq =>
    intro hpos H1 Hc
    have hs : 2 * pos + 1 < l.length := by omega
    rw [siftDownGo, dif_neg h, if_pos heq]
    constructor
    · intro i hi hp hne hnc hnpc
      have hi' : i < l.length := by simpa using hi
      have hp' : parentIdx i < l.length := by simpa using hp
      by_cases hip : i = pos
      · have hpos0 : pos ≠ 0 := by rw [← hip]; exact hne
        have hplt : parentIdx pos < pos := parentIdx_lt hpos0
        have hp0 : parentIdx pos < l.length := Nat.lt_trans hplt hpos
        have hparc : parentIdx (2 * pos + 1) = pos := by simp only [parentIdx]; omega
        have hb := Hc hpos0 hp0 (2 * pos + 1) hs (by omega) hparc
        rw [← getD_in_range l x hs] at hb
        rw [getElem_set_at l _ hip.symm hi]
        have hnep : pos ≠ parentIdx i := by
          rw [hip]; exact (Nat.ne_of_lt hplt).symm
        rw [List.getElem_set_ne hnep hp]
        have : l[parentIdx i] = l[parentIdx pos] :=
          getElem_congr_idx l (by rw [hip]) hp' hp0
        rw [this]
        exact hb
      · by_cases hpi : parentIdx i = pos
        · exfalso
          rcases child_cases hne hpi with hh | hh
          · exact hnc hh
          · omega
        · rw [List.getElem_set_ne (fun hh => hip hh.symm) hi,
            List.getElem_set_ne (fun hh => hpi hh.symm) hp]
          exact H1 i hi' hp' hne hip hpi
    · simp only
      omega
  | case4 l pos h heq =>
    intro hpos H1 _
    rw [siftDownGo, dif_neg h, if_neg heq]
    exact ⟨H1, by omega⟩

/-- Pop preserves the heap shape on the remaining elements. -/
theorem heapPop_isHeap {le : α → α → Bool} (htot : LeTotal le) (htr : LeTrans le)
    {l rest : List α} {e : α} (hheap : IsHeap le l)
    (h : heapPop le l = some (e, rest)) : IsHeap le rest := by
  cases l with
  | nil => simp [heapPop] at h
  | cons a0 tl =>
  rw [heapPop] at h
  simp only at h
  by_cases hemp : (a0 :: tl).dropLast.isEmpty
  · rw [if_pos hemp] at h
    injection h with h'
    injection h' with h1 h2
    rw [← h2, List.isEmpty_iff.mp hemp]
    intro i hi
    simp at hi
  · rw [if_neg hemp] at h
    injection h with h'
    injection h' with h1 h2
    have hd0 : 0 < (a0 :: tl).dropLast.length :=
      List.length_pos.mpr (by simpa using hemp)
    -- the truncated vector with the last element written at the root is
    -- heap-except-hole at the root
    have hbase : HeapExcept le ((a0 :: tl).dropLast.set 0 (tl.getLastD a0)) 0 := by
      intro i hi hp hne hnp hnpp
      have hi' : i < (a0 :: tl).dropLast.length := by simpa using hi
      have hp' : parentIdx i < (a0 :: tl).dropLast.length := by simpa using hp
      have hi2 : i < (a0 :: tl).length := by
        simp only [List.length_dropLast, List.length_cons] at hi'
        simp only [List.length_cons]
        omega
      have hp2 : parentIdx i < (a0 :: tl).length := by
        simp only [List.length_dropLast, List.length_cons] at hp'
        simp only [List.length_cons]
        omega
      rw [List.getElem_set_ne (fun hh => hnp hh.symm) hi,
        List.getElem_set_ne (fun hh => hnpp hh.symm) hp,
        List.getElem_dropLast _ i hi', List.getElem_dropLast _ (parentIdx i) hp']
      exact hheap i hi2 hp2 hne
    have hlen0 : (0 : Nat) < ((a0 :: tl).dropLast.set 0 (tl.getLastD a0)).length := by
      rw [List.length_set]
      exact hd0
    have hinv := siftDownGo_invariant htot htr (tl.getLastD a0)
      ((a0 :: tl).dropLast.set 0 (tl.getLastD a0)) 0 hlen0 hbase
      (fun hh _ => absurd rfl hh)
    have hleaf := hinv.2
    rw [List.length_set] at hleaf
    have hlsd := siftDownGo_length le (tl.getLastD a0)
      ((a0 :: tl).dropLast.set 0 (tl.getLastD a0)) 0
    rw [← h2]
    refine siftUpGo_isHeap htot htr (tl.getLastD a0) _ _ ?_ hinv.1 ?_ ?_
    · rw [hlsd]
      exact siftDownGo_snd_lt le (tl.getLastD a0) _ 0 hlen0
    · intro i hi hne hpi
      exfalso
      rw [hlsd, List.length_set] at hi
      rcases child_cases hne hpi with hh | hh <;> omega
    · intro hp hne i hi hne0 hpi
      exfalso
      rw [hlsd, List.length_set] at hi
      rcases child_cases hne0 hpi with hh | hh <;> omega

theorem strideLe_total (tasks : Nat → TCBInner) : LeTotal (strideLe tasks) := by
  intro x y
  simp only [strideLe, decide_eq_true_eq]
  omega

theorem strideLe_trans (tasks : Nat → TCBInner) : LeTrans (strideLe tasks) := by
  intro x y z
  simp only [strideLe, decide_eq_true_eq]
  omega

/-- Heap shape only depends on the strides of the enqueued tasks. -/
theorem isHeap_congr {t1 t2 : Nat → TCBInner} {l : List Nat}
    (hagree : ∀ p ∈ l, (t1 p).stride = (t2 p).stride)
    (h : IsHeap (strideLe t1) l) : IsHeap (strideLe t2) l := by
  intro i hi hp hne
  have hbase := h i hi hp hne
  simp only [strideLe, decide_eq_true_eq] at hbase ⊢
  rw [← hagree l[i] (List.getElem_mem hi),
    ← hagree (l[parentIdx i]) (List.getElem_mem hp)]
  exact hbase

theorem schedInv_add {s : KState} (hinv : SchedInv s) {t : Nat}
    (hnotin : t ∉ s.ready) : SchedInv (addTask s t) := by
  constructor
  · exact heapPush_isHeap (strideLe_total s.tasks) (strideLe_trans s.tasks)
      s.ready t hinv.1
  · have hperm := heapPush_perm (strideLe s.tasks) s.ready t
    exact hperm.symm.nodup (List.nodup_cons.mpr ⟨hnotin, hinv.2⟩)

theorem schedInv_fetch {s : KState} (hinv : SchedInv s) :
    SchedInv (fetchTask s).2 := by
  rw [fetchTask]
  cases hpop : heapPop (strideLe s.tasks) s.ready with
  | none => exact hinv
  | some p =>
    obtain ⟨t, rest⟩ := p
    have hperm := heapPop_perm (strideLe s.tasks) hpop
    have hnodup : (t :: rest).Nodup := hperm.nodup hinv.2
    have htrest : t ∉ rest := (List.nodup_cons.mp hnodup).1
    have hrnodup : rest.Nodup := (List.nodup_cons.mp hnodup).2
    have hheap := heapPop_isHeap (strideLe_total s.tasks) (strideLe_trans s.tasks)
      hinv.1 hpop
    refine ⟨?_, hrnodup⟩
    refine isHeap_congr ?_ hheap
    intro p hp
    have : p ≠ t := fun hh => htrest (hh ▸ hp)
    simp [this]

theorem schedReach_inv {s0 s : KState} (hreach : SchedReach s0 s)
    (hinv0 : SchedInv s0) : SchedInv s := by
  induction hreach with
  | refl => exact hinv0
  | add s t _ hnotin ih => exact schedInv_add ih hnotin
  | fetch s _ ih => exact schedInv_fetch ih

/-- C1 (amended): for every sequence of `add`/`fetch` calls on the
Scheduler starting from an empty ready queue, with no task added while it
is still enqueued, `fetch` returns, among the tasks currently enqueued,
one whose stride field is minimal at the instant of the call.  (The
original tie-break clause — earliest-added first among equal minimal
strides — is refuted by `c1_tie_break_counterexample`.) -/
theorem c1_fetch_min_stride {s0 s : KState} (hempty : s0.ready = [])
    (hreach : SchedReach s0 s) {t : Nat} {s' : KState}
    (hfetch : fetchTask s = (some t, s')) :
    t ∈ s.ready ∧ ∀ u ∈ s.ready, (s.tasks t).stride ≤ (s.tasks u).stride := by
  have hinv : SchedInv s := by
    refine schedReach_inv hreach ⟨?_, ?_⟩
    · rw [hempty]
      intro i hi
      simp at hi
    · rw [hempty]
      exact List.nodup_nil
  rw [fetchTask] at hfetch
  cases hpop : heapPop (strideLe s.tasks) s.ready with
  | none =>
    rw [hpop] at hfetch
    simp at hfetch
  | some pr =>
    obtain ⟨e, rest⟩ := pr
    rw [hpop] at hfetch
    simp only [Prod.mk.injEq, Option.some.injEq] at hfetch
    obtain ⟨rfl, _⟩ := hfetch
    have h0 : 0 < s.ready.length := heapPop_pos _ hpop
    have hroot : e = s.ready[0] := heapPop_root _ hpop h0
    constructor
    · rw [hroot]
      exact List.getElem_mem h0
    · intro u hu
      obtain ⟨j, hj, hju⟩ := List.mem_iff_getElem.mp hu
      have hle := isHeap_le_root (strideLe_total s.tasks) (strideLe_trans s.tasks)
        s.ready hinv.1 j hj h0
      simp only [strideLe, decide_eq_true_eq] at hle
      rw [← hju, hroot]
      exact hle

/-- C1 (counterexample to the tie-break clause): add tasks 1,2,3,4, all
with equal (hence minimal) stride 0, in that order; the first `fetch`
returns task 1, after which tasks 2, 3, 4 — all still at the minimal
stride 0 — remain enqueued; the second `fetch` returns task 3, not the
earliest-added remaining task 2. -/
theorem c1_tie_break_counterexample :
    (fetchTask (addTask (addTask (addTask (addTask exSched0 1) 2) 3) 4)).1 = some 1
    ∧ exSched5.ready = [3, 2, 4]
    ∧ (exSched5.tasks 2).stride = 0
    ∧ (exSched5.tasks 3).stride = 0
    ∧ (∀ u ∈ exSched5.ready, (exSched5.tasks 2).stride ≤ (exSched5.tasks u).stride)
    ∧ (fetchTask exSched5).1 = some 3 := by
  refine ⟨?_, ?_, ?_, ?_, ?_, ?_⟩ <;>
    simp [exSched5, exSched0, exInner, fetchTask, addTask, heapPush, heapPop,
      siftUpGo, siftDownGo, strideLe, BIG_STRIDE, parentIdx]

/-- C1 witness: a single `add` of task 7 to the empty scheduler followed
by `fetch` returns task 7, trivially of minimal stride. -/
theorem c1_fetch_min_stride_witness :
    7 ∈ (addTask exSched0 7).ready
    ∧ ∀ u ∈ (addTask exSched0 7).ready,
        ((addTask exSched0 7).tasks 7).stride ≤ ((addTask exSched0 7).tasks u).stride := by
  have h1 : (fetchTask (addTask exSched0 7)).1 = some 7 := by
    simp [exSched0, exInner, fetchTask, addTask, heapPush, heapPop, siftUpGo,
      siftDownGo, strideLe, BIG_STRIDE, parentIdx]
  have hfetch : fetchTask (addTask exSched0 7)
      = (some 7, (fetchTask (addTask exSched0 7)).2) := by
    rw [← h1]
  exact c1_fetch_min_stride rfl
    (SchedReach.add exSched0 exSched0 7 (SchedReach.refl exSched0) (by decide))
    hfetch

/-- For a positive divisor, Rust truncating division is floor division
of the corresponding naturals. -/
theorem int_tdiv_big (p : Int) (hp : 1 ≤ p) :
    Int.tdiv BIG_STRIDE p = Int.ofNat (6469693230 / p.toNat) := by
  cases p with
  | ofNat n => rfl
  | negSucc n =>
    exfalso
    have := Int.negSucc_lt_zero n
    omega

/-- C2: when `fetch()` selects and returns a task with priority `p ≥ 1`
and pre-fetch stride `s` (enqueued once), the task's stride afterwards is
exactly `s + ⌊BIG_STRIDE / p⌋` and the task is absent from the ready
structure until a subsequent `add` re-inserts it. -/
theorem c2_fetch_pass_update {s : KState} {t : Nat} {s' : KState}
    (hfetch : fetchTask s = (some t, s'))
    (hprio : 1 ≤ (s.tasks t).priority)
    (hcount : List.count t s.ready ≤ 1) :
    (s'.tasks t).stride
      = (s.tasks t).stride + Int.ofNat (6469693230 / (s.tasks t).priority.toNat)
    ∧ t ∉ s'.ready := by
  rw [fetchTask] at hfetch
  cases hpop : heapPop (strideLe s.tasks) s.ready with
  | none =>
    rw [hpop] at hfetch
    simp at hfetch
  | some pr =>
    obtain ⟨e, rest⟩ := pr
    rw [hpop] at hfetch
    simp only [Prod.mk.injEq, Option.some.injEq] at hfetch
    obtain ⟨rfl, hs'⟩ := hfetch
    subst hs'
    constructor
    · have key : Int.tdiv BIG_STRIDE (s.tasks e).priority
          = Int.ofNat (6469693230 / (s.tasks e).priority.toNat) :=
        int_tdiv_big _ hprio
      simp [key]
    · have hperm := heapPop_perm (strideLe s.tasks) hpop
      have hcnt := hperm.count_eq e
      rw [List.count_cons_self] at hcnt
      have : List.count e rest = 0 := by omega
      simpa using List.count_eq_zero.mp this

/-- C2 witness: fetching from `exC2` advances task 5 from stride 0 to
`⌊6469693230 / 2⌋` and leaves it dequeued. -/
theorem c2_fetch_pass_update_witness :
    ((fetchTask exC2).2.tasks 5).stride
      = (exC2.tasks 5).stride + Int.ofNat (6469693230 / (exC2.tasks 5).priority.toNat)
    ∧ 5 ∉ (fetchTask exC2).2.ready := by
  have h1 : (fetchTask exC2).1 = some 5 := by
    simp [exC2, exInner, fetchTask, heapPop, strideLe, BIG_STRIDE]
  have hfetch : fetchTask exC2 = (some 5, (fetchTask exC2).2) := by
    rw [← h1]
  exact c2_fetch_pass_update hfetch (by decide) (by decide)

/-- C3: after `exit_current_and_run_next(code)` with current task `t`
(when it completes: `t` current, not `INITPROC`, no degenerate child
cycles), `t` is a `Zombie` with exit code `code` and an empty children
list, and each former child has its parent reference on `INITPROC` and
appears in `INITPROC`'s children list. -/
theorem c3_exit_reparents {s : KState} (code : Int) {s' : KState} {t : Nat}
    (hcur : s.current = some t)
    (hexit : exit_current_and_run_next code s = some s') :
    (s'.tasks t).task_status = TaskStatus.Zombie
    ∧ (s'.tasks t).exit_code = code
    ∧ (s'.tasks t).children = []
    ∧ ∀ c ∈ (s.tasks t).children,
        (s'.tasks c).parent = some s.init_pid
        ∧ c ∈ (s'.tasks s.init_pid).children := by
  rw [exit_current_and_run_next, hcur] at hexit
  simp only [] at hexit
  by_cases hguard :
      t = s.init_pid ∨ t ∈ (s.tasks t).children ∨ s.init_pid ∈ (s.tasks t).children
  · rw [if_pos hguard] at hexit
    simp at hexit
  · rw [if_neg hguard] at hexit
    simp only [Option.some.injEq] at hexit
    subst hexit
    push_neg at hguard
    obtain ⟨hne_init, hnotself, hinit_not⟩ := hguard
    refine ⟨by simp, by simp, by simp, ?_⟩
    intro c hc
    have hct : c ≠ t := fun hh => hnotself (hh ▸ hc)
    have hcinit : c ≠ s.init_pid := fun hh => hinit_not (hh ▸ hc)
    constructor
    · simp [hct, hcinit, hc]
    · have hit : s.init_pid ≠ t := fun hh => hne_init hh.symm
      simp only [hit, if_neg, if_pos rfl]
      simp
      exact Or.inr hc

/-- C3 witness: after task 1 exits with code 9, it is a Zombie with exit
code 9 and no children, and its former child 2 now has parent `INITPROC`
(pid 0) and appears among pid-0 children. -/
theorem c3_exit_reparents_witness :
    (exC3After.tasks 1).task_status = TaskStatus.Zombie
    ∧ (exC3After.tasks 1).exit_code = 9
    ∧ (exC3After.tasks 1).children = []
    ∧ ∀ c ∈ (exC3.tasks 1).children,
        (exC3After.tasks c).parent = some exC3.init_pid
        ∧ c ∈ (exC3After.tasks exC3.init_pid).children :=
  c3_exit_reparents 9 rfl rfl

/-- C4: `suspend_current_and_run_next()` with a running task `t` that is
not otherwise enqueued leaves `t` with status `Ready`, occurring exactly
once in the ready structure, which as a multiset gained exactly `t`; the
current slot is emptied, so no task is lost or duplicated. -/
theorem c4_suspend_requeues {s : KState} {s' : KState} {t : Nat}
    (hcur : s.current = some t)
    (hsusp : suspend_current_and_run_next s = some s')
    (hnotin : t ∉ s.ready) :
    (s'.tasks t).task_status = TaskStatus.Ready
    ∧ List.count t s'.ready = 1
    ∧ List.Perm s'.ready (t :: s.ready)
    ∧ s'.current = none := by
  rw [suspend_current_and_run_next, hcur] at hsusp
  simp only [Option.some.injEq] at hsusp
  subst hsusp
  have hperm := heapPush_perm
    (strideLe fun p =>
      if p = t then { s.tasks t with task_status := TaskStatus.Ready } else s.tasks p)
    s.ready t
  refine ⟨by simp [addTask], ?_, ?_, rfl⟩
  · have hcnt := hperm.count_eq t
    rw [List.count_cons_self, List.count_eq_zero.mpr hnotin] at hcnt
    simpa [addTask] using hcnt
  · simpa [addTask] using hperm

/-- C4 witness: suspending current task 3 of `exC4` marks it Ready and
enqueues it exactly once. -/
theorem c4_suspend_requeues_witness :
    (exC4After.tasks 3).task_status = TaskStatus.Ready
    ∧ List.count 3 exC4After.ready = 1
    ∧ List.Perm exC4After.ready (3 :: exC4.ready)
    ∧ exC4After.current = none :=
  c4_suspend_requeues rfl rfl (by decide)

/-- C9: `suspend_current_and_run_next()` changes nothing in any task
record except the suspended task's status, which becomes `Ready`: stride,
priority, exit code, saved context, syscall counters, dispatch stamp,
parent and children of every task are untouched (the saved-context
contents are only written by the context switch itself, outside this
model), and the task re-enters the ready structure at its already-advanced
stride. -/
theorem c9_suspend_frame {s : KState} {s' : KState} {t : Nat}
    (hcur : s.current = some t)
    (hsusp : suspend_current_and_run_next s = some s') :
    (∀ p, (s'.tasks p).stride = (s.tasks p).stride
      ∧ (s'.tasks p).priority = (s.tasks p).priority
      ∧ (s'.tasks p).exit_code = (s.tasks p).exit_code
      ∧ (s'.tasks p).task_cx = (s.tasks p).task_cx
      ∧ (s'.tasks p).syscall_times = (s.tasks p).syscall_times
      ∧ (s'.tasks p).start_time_ms = (s.tasks p).start_time_ms
      ∧ (s'.tasks p).parent = (s.tasks p).parent
      ∧ (s'.tasks p).children = (s.tasks p).children)
    ∧ (s'.tasks t).task_status = TaskStatus.Ready
    ∧ (∀ p, p ≠ t → (s'.tasks p).task_status = (s.tasks p).task_status)
    ∧ t ∈ s'.ready := by
  rw [suspend_current_and_run_next, hcur] at hsusp
  simp only [Option.some.injEq] at hsusp
  subst hsusp
  refine ⟨?_, by simp [addTask], ?_, ?_⟩
  · intro p
    by_cases hp : p = t
    · subst hp
      simp [addTask]
    · simp [addTask, hp]
  · intro p hp
    simp [addTask, hp]
  · have hperm := heapPush_perm
      (strideLe fun p =>
        if p = t then { s.tasks t with task_status := TaskStatus.Ready } else s.tasks p)
      s.ready t
    have : t ∈ (t :: s.ready) := List.mem_cons_self t s.ready
    simpa [addTask] using hperm.symm.mem_iff.mp this

/-- C9 witness: the frame property at the concrete state `exC4`. -/
theorem c9_suspend_frame_witness :
    (∀ p, (exC4After.tasks p).stride = (exC4.tasks p).stride
      ∧ (exC4After.tasks p).priority = (exC4.tasks p).priority
      ∧ (exC4After.tasks p).exit_code = (exC4.tasks p).exit_code
      ∧ (exC4After.tasks p).task_cx = (exC4.tasks p).task_cx
      ∧ (exC4After.tasks p).syscall_times = (exC4.tasks p).syscall_times
      ∧ (exC4After.tasks p).start_time_ms = (exC4.tasks p).start_time_ms
      ∧ (exC4After.tasks p).parent = (exC4.tasks p).parent
      ∧ (exC4After.tasks p).children = (exC4.tasks p).children)
    ∧ (exC4After.tasks 3).task_status = TaskStatus.Ready
    ∧ (∀ p, p ≠ 3 → (exC4After.tasks p).task_status = (exC4.tasks p).task_status)
    ∧ 3 ∈ exC4After.ready :=
  c9_suspend_frame rfl rfl

/-! ### Priority invariant and stride monotonicity -/
theorem prioInv_addTask {s : KState} (h : PrioInv s) (t : Nat) :
    PrioInv (addTask s t) := by
  intro p
  simpa [addTask] using h p

theorem prioInv_fetchTask {s : KState} (h : PrioInv s) :
    PrioInv (fetchTask s).2 := by
  intro p
  rw [fetchTask]
  cases hpop : heapPop (strideLe s.tasks) s.ready with
  | none => exact h p
  | some pr =>
    obtain ⟨e, rest⟩ := pr
    simp only
    by_cases hp : p = e
    · subst hp
      simpa using h p
    · simpa [hp] using h p

theorem fetchTask_stride {s : KState} (h : PrioInv s) (q : Nat) :
    (s.tasks q).stride ≤ ((fetchTask s).2.tasks q).stride := by
  rw [fetchTask]
  cases hpop : heapPop (strideLe s.tasks) s.ready with
  | none => exact le_refl _
  | some pr =>
    obtain ⟨e, rest⟩ := pr
    simp only
    by_cases hp : q = e
    · subst hp
      have hdiv : 0 ≤ Int.tdiv BIG_STRIDE (s.tasks q).priority := by
        rw [int_tdiv_big _ (h q)]
        exact Int.ofNat_nonneg _
      simp
      omega
    · simp [hp]

theorem fetchTask_priority {s : KState} (q : Nat) :
    ((fetchTask s).2.tasks q).priority = (s.tasks q).priority := by
  rw [fetchTask]
  cases hpop : heapPop (strideLe s.tasks) s.ready with
  | none => rfl
  | some pr =>
    obtain ⟨e, rest⟩ := pr
    simp only
    by_cases hp : q = e
    · subst hp; simp
    · simp [hp]

theorem run_tasks_step_tasks {s : KState} (now : Nat) (q : Nat) :
    ((run_tasks_step s now).tasks q).stride = ((fetchTask s).2.tasks q).stride
    ∧ ((run_tasks_step s now).tasks q).priority = ((fetchTask s).2.tasks q).priority := by
  rw [run_tasks_step]
  cases hf : fetchTask s with
  | mk o s1 =>
    cases o with
    | none => simp
    | some t =>
      simp only
      by_cases hq : q = t
      · subst hq; simp
      · simp [hq]

theorem prioInv_runStep {s : KState} (h : PrioInv s) (now : Nat) :
    PrioInv (run_tasks_step s now) := by
  intro p
  rw [(run_tasks_step_tasks now p).2]
  exact prioInv_fetchTask h p

theorem prioInv_suspend {s : KState} (h : PrioInv s) :
    PrioInv ((suspend_current_and_run_next s).getD s) := by
  rw [suspend_current_and_run_next]
  cases hc : s.current with
  | none => exact h
  | some t =>
    intro p
    by_cases hp : p = t
    · subst hp
      simpa [addTask] using h p
    · simpa [addTask, hp] using h p

theorem prioInv_exit {s : KState} (h : PrioInv s) (code : Int) :
    PrioInv ((exit_current_and_run_next code s).getD s) := by
  rw [exit_current_and_run_next]
  cases hc : s.current with
  | none => exact h
  | some t =>
    simp only
    by_cases hguard :
        t = s.init_pid ∨ t ∈ (s.tasks t).children ∨ s.init_pid ∈ (s.tasks t).children
    · rw [if_pos hguard]
      exact h
    · rw [if_neg hguard]
      push_neg at hguard
      obtain ⟨hg1, hg2, hg3⟩ := hguard
      have hit : s.init_pid ≠ t := fun hh => hg1 hh.symm
      intro p
      by_cases hp : p = t
      · subst hp
        simpa using h p
      · by_cases hpi : p = s.init_pid
        · simpa [hp, hpi, hit] using h p
        · by_cases hpc : p ∈ (s.tasks t).children
          · simpa [hp, hpi, hpc] using h p
          · simpa [hp, hpi, hpc] using h p

theorem prioInv_sysSetPriority {s : KState} (h : PrioInv s) (pr : Int) :
    PrioInv ((sys_set_priority pr s).getD s) := by
  rw [sys_set_priority]
  by_cases hpr : 1 ≤ pr
  · rw [if_pos hpr, set_current_task_priority]
    cases hc : s.current with
    | none => exact h
    | some t =>
      intro p
      by_cases hp : p = t
      · subst hp
        simpa using hpr
      · simpa [hp] using h p
  · rw [if_neg hpr]
    exact h

theorem prioInv_applyChecked {s : KState} (h : PrioInv s) (o : CoreOp) :
    PrioInv (applyChecked o s) := by
  cases o with
  | add t => exact prioInv_addTask h t
  | fetch => exact prioInv_fetchTask h
  | runStep now => exact prioInv_runStep h now
  | suspend => exact prioInv_suspend h
  | exit code => exact prioInv_exit h code
  | setPrio p => exact prioInv_sysSetPriority h p

theorem prioInv_runChecked (ops : List CoreOp) :
    ∀ s : KState, PrioInv s → PrioInv (runChecked ops s) := by
  induction ops with
  | nil => intro s h; exact h
  | cons o rest ih =>
    intro s h
    exact ih _ (prioInv_applyChecked h o)

/-- C5: with the spec-modelled syscall-layer validation in front of
`set_current_task_priority` (rejecting priorities below 1 before they
reach this core), in every state reachable by this core's operations
from a state satisfying the priority invariant, whenever `fetch` pops a
task `t` — the only point where `BIG_STRIDE / priority` is evaluated —
the divisor `priority(t)` is at least 1 and in particular never 0. -/
theorem c5_no_zero_divisor {s0 : KState} (hinv : PrioInv s0) (ops : List CoreOp)
    {t : Nat} {rest : List Nat}
    (hpop : heapPop (strideLe (runChecked ops s0).tasks) (runChecked ops s0).ready
      = some (t, rest)) :
    1 ≤ ((runChecked ops s0).tasks t).priority
    ∧ ((runChecked ops s0).tasks t).priority ≠ 0 := by
  have h := prioInv_runChecked ops s0 hinv t
  exact ⟨h, by omega⟩

/-- C5 witness: starting from `exC2` (priorities 2 and 16) and running no
further operation, the fetch of task 5 divides by priority 2 ≠ 0. -/
theorem c5_no_zero_divisor_witness :
    1 ≤ ((runChecked [] exC2).tasks 5).priority
    ∧ ((runChecked [] exC2).tasks 5).priority ≠ 0 :=
  @c5_no_zero_divisor exC2
    (fun p => by
      by_cases h : p = 5 <;> simp [exC2, exInner, h])
    [] 5 []
    (by simp [runChecked, exC2, exInner, heapPop, strideLe])

/-- C6 (amended): provided every task's priority is at least 1 when the
operation runs — the spec's own invariant, which the raw
`set_current_task_priority` of this core does not itself enforce — no
operation of this core (add, fetch, run-loop dispatch, suspend, exit,
set-priority) makes any task's stride smaller.  The unrestricted claim is
refuted by `c6_stride_decrease_counterexample`. -/
theorem c6_stride_monotone (o : CoreOp) (s : KState) (hinv : PrioInv s) (q : Nat) :
    (s.tasks q).stride ≤ ((applyOp o s).tasks q).stride := by
  cases o with
  | add t => simp [applyOp, addTask]
  | fetch => exact fetchTask_stride hinv q
  | runStep now =>
    rw [applyOp, (run_tasks_step_tasks now q).1]
    exact fetchTask_stride hinv q
  | suspend =>
    rw [applyOp, suspend_current_and_run_next]
    cases hc : s.current with
    | none => exact le_refl _
    | some t =>
      by_cases hp : q = t
      · subst hp
        simp [addTask]
      · simp [addTask, hp]
  | exit code =>
    rw [applyOp, exit_current_and_run_next]
    cases hc : s.current with
    | none => exact le_refl _
    | some t =>
      simp only
      by_cases hguard :
          t = s.init_pid ∨ t ∈ (s.tasks t).children ∨ s.init_pid ∈ (s.tasks t).children
      · rw [if_pos hguard]
        exact le_refl _
      · rw [if_neg hguard]
        push_neg at hguard
        obtain ⟨hg1, hg2, hg3⟩ := hguard
        have hit : s.init_pid ≠ t := fun hh => hg1 hh.symm
        by_cases hp : q = t
        · subst hp
          simp
        · by_cases hpi : q = s.init_pid
          · simp [hp, hpi, hit]
          · by_cases hpc : q ∈ (s.tasks t).children
            · simp [hp, hpi, hpc]
            · simp [hp, hpi, hpc]
  | setPrio pr =>
    rw [applyOp, set_current_task_priority]
    cases hc : s.current with
    | none => exact le_refl _
    | some t =>
      by_cases hp : q = t
      · subst hp
        simp
      · simp [hp]

/-- C6 (counterexample): the sequence `set_current_task_priority(-1)`
(accepted unvalidated by this core), `suspend`, `fetch` drives task 0's
stride from 0 down to `-6469693230`: stride is not monotone over the
core's raw operations. -/
theorem c6_stride_decrease_counterexample :
    ((applyOp CoreOp.fetch (applyOp CoreOp.suspend
        (applyOp (CoreOp.setPrio (-1)) exC6))).tasks 0).stride
      < (exC6.tasks 0).stride := by
  simp [applyOp, exC6, exInner, set_current_task_priority,
    suspend_current_and_run_next, addTask, fetchTask, heapPush, heapPop,
    siftUpGo, siftDownGo, strideLe, BIG_STRIDE, parentIdx]

/-- C6 witness (for the amended monotonicity): a fetch step from `exC2`
does not decrease task 5's stride. -/
theorem c6_stride_monotone_witness :
    (exC2.tasks 5).stride ≤ ((applyOp CoreOp.fetch exC2).tasks 5).stride :=
  c6_stride_monotone CoreOp.fetch exC2
    (fun p => by
      by_cases h : p = 5 <;> simp [exC2, exInner, h])
    5

/-! ### mmap validation and permissions -/
/-- A `usize` with no bit outside the low three set is below 8. -/
theorem port_lt_8 {port : Nat} (h1 : port &&& USIZE_NOT_7 = 0)
    (h2 : port < 2 ^ 64) : port < 8 := by
  have hid : port &&& (2 ^ 64 - 1) = port :=
    Nat.and_pow_two_sub_one_of_lt_two_pow h2
  have hsplit : (2 ^ 64 - 1 : Nat) = USIZE_NOT_7 ||| 7 := by decide
  have hdecomp : port = (port &&& USIZE_NOT_7) ||| (port &&& 7) := by
    rw [← Nat.and_or_distrib_left, ← hsplit, hid]
  rw [h1, Nat.zero_or] at hdecomp
  have h7 : port &&& 7 ≤ 7 := Nat.and_le_right
  omega

/-- On a valid port the mapped permission byte passes
`MapPermission::from_bits` unchanged. -/
theorem from_bits_valid_port {port : Nat} (hp8 : port < 8) :
    MapPermission_from_bits ((port <<< 1) % 256) = some (port <<< 1) := by
  have h2 : port <<< 1 = 2 * port := by
    rw [Nat.shiftLeft_eq]
    ring
  have hmod : (port <<< 1) % 256 = port <<< 1 := by
    rw [h2]
    omega
  rw [hmod, MapPermission_from_bits, if_pos]
  rw [h2]
  interval_cases port <;> decide

/-- On passing all checks, `current_task_mmap` delegates the insertion
with permission `(port << 1) | U`. -/
theorem mmap_success_eq {M : Type} (mc : MMCollab M) (pid : Nat) (ms : M)
    (start len port : Nat)
    (halign : start &&& (PAGE_SIZE - 1) = 0)
    (hport1 : port &&& USIZE_NOT_7 = 0) (hport2 : port &&& 7 ≠ 0)
    (hrange : port < 2 ^ 64)
    (hconf : mc.is_conflict ms start (ceilPage (start + len)) = false) :
    current_task_mmap mc (some (pid, ms)) start len port
      = mc.insert_framed_area ms start (ceilPage (start + len))
          ((port <<< 1) ||| MapPermission_U) := by
  rw [current_task_mmap, if_neg (by simp [halign]),
    if_neg (by simp [hport1, hport2])]
  simp only [hconf, Bool.false_eq_true, if_false,
    from_bits_valid_port (port_lt_8 hport1 hrange)]

/-- C7: `current_task_mmap(start, len, port)` rejects — returning the
failure result `none` with nothing changed and nothing delegated to the
address-space collaborator (the result is `none` for every collaborator
`mc`) — a non-page-aligned `start`, a `port` with a bit outside the low
three or with all of the low three clear, and a range conflicting with
an existing mapping; otherwise it delegates the mapping to the
collaborator. -/
theorem c7_mmap_validation {M : Type} (mc : MMCollab M) (cur : Option (Nat × M))
    (start len port : Nat) :
    (start &&& (PAGE_SIZE - 1) ≠ 0 →
      current_task_mmap mc cur start len port = none)
    ∧ (port &&& USIZE_NOT_7 ≠ 0 ∨ port &&& 7 = 0 →
      current_task_mmap mc cur start len port = none)
    ∧ (∀ pid ms, cur = some (pid, ms) →
        mc.is_conflict ms start (ceilPage (start + len)) = true →
        current_task_mmap mc cur start len port = none)
    ∧ (∀ pid ms, cur = some (pid, ms) →
        start &&& (PAGE_SIZE - 1) = 0 →
        port &&& USIZE_NOT_7 = 0 → port &&& 7 ≠ 0 → port < 2 ^ 64 →
        mc.is_conflict ms start (ceilPage (start + len)) = false →
        current_task_mmap mc cur start len port
          = mc.insert_framed_area ms start (ceilPage (start + len))
              ((port <<< 1) ||| MapPermission_U)) := by
  refine ⟨?_, ?_, ?_, ?_⟩
  · intro h
    rw [current_task_mmap, if_pos h]
  · intro h
    rw [current_task_mmap]
    by_cases h1 : start &&& (PAGE_SIZE - 1) ≠ 0
    · rw [if_pos h1]
    · rw [if_neg h1, if_pos h]
  · intro pid ms hcur hconf
    subst hcur
    rw [current_task_mmap]
    by_cases h1 : start &&& (PAGE_SIZE - 1) ≠ 0
    · rw [if_pos h1]
    · rw [if_neg h1]
      by_cases h2 : port &&& USIZE_NOT_7 ≠ 0 ∨ port &&& 7 = 0
      · rw [if_pos h2]
      · rw [if_neg h2]
        simp [hconf]
  · intro pid ms hcur halign hport1 hport2 hrange hconf
    subst hcur
    exact mmap_success_eq mc pid ms start len port halign hport1 hport2 hrange hconf

/-- C7 witness: the four cases at concrete inputs — misaligned start 5,
port 8 (a bit outside the low three), port 0 (no low bit), a conflicting
range, and a successful delegation. -/
theorem c7_mmap_validation_witness :
    current_task_mmap exMC (some (1, 0)) 5 4096 3 = none
    ∧ current_task_mmap exMC (some (1, 0)) 4096 4096 8 = none
    ∧ current_task_mmap exMC (some (1, 0)) 4096 4096 0 = none
    ∧ current_task_mmap exMCConf (some (1, 0)) 4096 4096 3 = none
    ∧ current_task_mmap exMC (some (1, 0)) 4096 100 3
        = exMC.insert_framed_area 0 4096 (ceilPage 4196)
            ((3 <<< 1) ||| MapPermission_U) := by
  refine ⟨?_, ?_, ?_, ?_, ?_⟩
  · exact (c7_mmap_validation exMC (some (1, 0)) 5 4096 3).1 (by decide)
  · exact (c7_mmap_validation exMC (some (1, 0)) 4096 4096 8).2.1 (Or.inl (by decide))
  · exact (c7_mmap_validation exMC (some (1, 0)) 4096 4096 0).2.1 (Or.inr (by decide))
  · exact (c7_mmap_validation exMCConf (some (1, 0)) 4096 4096 3).2.2.1 1 0 rfl rfl
  · exact (c7_mmap_validation exMC (some (1, 0)) 4096 100 3).2.2.2 1 0 rfl
      (by decide) (by decide) (by decide) (by decide) rfl

/-- C10: every mapping created through `current_task_mmap` hands the
collaborator the permission set consisting of the low-three `port` bits
shifted left by one, always combined with the user-accessible `U` bit:
the resulting permission always has `U` set. -/
theorem c10_mmap_user_permission {M : Type} (mc : MMCollab M) (pid : Nat)
    (ms : M) (start len port : Nat)
    (halign : start &&& (PAGE_SIZE - 1) = 0)
    (hport1 : port &&& USIZE_NOT_7 = 0) (hport2 : port &&& 7 ≠ 0)
    (hrange : port < 2 ^ 64)
    (hconf : mc.is_conflict ms start (ceilPage (start + len)) = false) :
    current_task_mmap mc (some (pid, ms)) start len port
      = mc.insert_framed_area ms start (ceilPage (start + len))
          ((port <<< 1) ||| MapPermission_U)
    ∧ ((port <<< 1) ||| MapPermission_U) &&& MapPermission_U ≠ 0 := by
  refine ⟨mmap_success_eq mc pid ms start len port halign hport1 hport2 hrange hconf, ?_⟩
  have hp8 : port < 8 := port_lt_8 hport1 hrange
  have h2 : port <<< 1 = 2 * port := by
    rw [Nat.shiftLeft_eq]
    ring
  rw [h2, MapPermission_U]
  interval_cases port <;> decide

/-- C10 witness: a read-write mapping request (`port = 3`) is delegated
with permission `(3 << 1) | U` and that permission is user-accessible. -/
theorem c10_mmap_user_permission_witness :
    current_task_mmap exMC (some (1, 0)) 4096 100 3
      = exMC.insert_framed_area 0 4096 (ceilPage 4196)
          ((3 <<< 1) ||| MapPermission_U)
    ∧ ((3 <<< 1) ||| MapPermission_U) &&& MapPermission_U ≠ 0 :=
  c10_mmap_user_permission exMC 1 0 4096 100 3 (by decide) (by decide)
    (by decide) (by decide) rfl

/-! ### The exclusive-access cell -/
/-- C8: `exclusive_access` on a cell with no outstanding guard succeeds
and returns a guard to the wrapped value; called while a guard from a
previous `exclusive_access` on the same cell is still alive, it fails
immediately — never blocking, never yielding a second guard — with the
panic message identifying the cell by name. -/
theorem c8_exclusive_access_contract (T : Type) (c : UPSafeCell T) :
    (c.borrowed = false →
      UPSafeCell.exclusive_access c
        = Except.ok (c.value, { c with borrowed := true }))
    ∧ (∀ v : T, ∀ c1 : UPSafeCell T,
        UPSafeCell.exclusive_access c = Except.ok (v, c1) →
          UPSafeCell.exclusive_access c1
            = Except.error ("[" ++ c.name ++ "] has been borrowed")) := by
  constructor
  · intro h
    rw [UPSafeCell.exclusive_access, if_neg (by simp [h])]
  · intro v c1 hok
    rw [UPSafeCell.exclusive_access] at hok
    by_cases hb : c.borrowed
    · rw [if_pos hb] at hok
      cases hok
    · rw [if_neg hb] at hok
      simp only [Except.ok.injEq, Prod.mk.injEq] at hok
      obtain ⟨hv, hc1⟩ := hok
      rw [UPSafeCell.exclusive_access, ← hc1]
      rw [if_pos rfl]

/-- C8 witness: on `exCell` the first access succeeds; a second access
while the first guard lives panics naming the cell. -/
theorem c8_exclusive_access_contract_witness :
    UPSafeCell.exclusive_access exCell
      = Except.ok (0, { exCell with borrowed := true })
    ∧ UPSafeCell.exclusive_access { exCell with borrowed := true }
      = Except.error ("[TaskManager] has been borrowed") :=
  ⟨(c8_exclusive_access_contract Nat exCell).1 rfl,
    (c8_exclusive_access_contract Nat exCell).2 0
      { exCell with borrowed := true } rfl⟩

end Os5
